import Mathlib

/-!
Verification development for the openraft-based replicated key-value store:
the per-follower replication progress updater (`openraft/src/progress/entry/update.rs`)
and the RocksDB storage backend (`rocksstore/src/lib.rs`).

Machine integers (`u64`) are modelled as `Nat`; the indices involved never
reach `2^64` in any reachable configuration considered here.  Fallible
operations are modelled with `Except`; a failing `debug_assert!` (a panic,
halting the process when debug assertions are enabled) is modelled as the
`Except.error` branch.
-/

set_option autoImplicit false

namespace Openraft

/-- LogId is a pair of term and index; ordering is lexicographic (term, index),
as produced by the derived `Ord` on the Rust struct. -/
structure LogId where
  term : Nat
  index : Nat
  deriving DecidableEq

/-- Boolean lexicographic order on `LogId`, mirroring the derived Rust `Ord`. -/
def logIdLeb (a b : LogId) : Bool :=
  Nat.blt a.term b.term || (a.term == b.term && Nat.ble a.index b.index)

/-- Ordering on `Option<&LogId>` as derived in Rust: `None` is least. -/
def optLogIdLeb : Option LogId → Option LogId → Bool
  | none, _ => true
  | some _, none => false
  | some a, some b => logIdLeb a b

/-- Modelled from the spec: `LogIdOptionExt::next_index` (declared outside
`src/`): the next index after an optional log id, reading `None` as 0. -/
def nextIndex : Option LogId → Nat
  | none => 0
  | some l => l.index + 1

/-- Modelled from the spec: the inflight replication window, a tagged variant
`None | Probe | Logs | Snapshot`, each non-none case carrying a request id
(design notes section 9 of the spec; the Rust type is declared outside
`src/`). -/
inductive Inflight where
  | none
  | probe (index : Nat) (requestId : Nat)
  | logs (prevIndex : Nat) (lastIndex : Nat) (requestId : Nat)
  | snapshot (snapshotIndex : Nat) (requestId : Nat)
  deriving DecidableEq

/-- Modelled from the spec: `inflight.conflict(c)` resets the inflight window
opened by the rejected AppendEntries. -/
def Inflight.conflict (_i : Inflight) (_c : Nat) : Inflight :=
  Inflight.none

/-- Modelled from the spec: `inflight.ack(matching)` clears the corresponding
inflight window. -/
def Inflight.ack (_i : Inflight) (_matching : Option LogId) : Inflight :=
  Inflight.none

/-- Modelled from the spec: the engine configuration bits read by the updater;
only `allow_log_reversion` is consulted in `update.rs`. -/
structure EngineConfig where
  allow_log_reversion : Bool
  deriving DecidableEq

/-- Modelled from the spec: per-follower replication state (section 3 of the
spec; the struct itself is declared outside `src/`, its two update transitions
are `src/openraft/src/progress/entry/update.rs`). -/
structure ProgressEntry where
  matching : Option LogId
  searching_end : Nat
  inflight : Inflight
  allow_log_reversion : Bool
  deriving DecidableEq

/-- Embedding of `Updater::update_conflicting` from
`src/openraft/src/progress/entry/update.rs`.  The failing `debug_assert!`
(follower log reversion without `allow_log_reversion`) is the `error` case. -/
def update_conflicting (cfg : EngineConfig) (e : ProgressEntry) (conflict : Nat)
    (has_payload : Bool) : Except String ProgressEntry :=
  let e := if has_payload then { e with inflight := e.inflight.conflict conflict } else e
  if conflict ≥ e.searching_end then
    Except.ok e
  else
    let e := { e with searching_end := conflict }
    let allow_reset := e.allow_log_reversion || cfg.allow_log_reversion
    if allow_reset then
      if conflict < nextIndex e.matching then
        Except.ok { e with matching := Option.none, allow_log_reversion := false }
      else
        Except.ok e
    else
      if conflict ≥ nextIndex e.matching then
        Except.ok e
      else
        Except.error "follower log reversion is not allowed without allow_log_reversion enabled"

/-- Embedding of `Updater::update_matching` from
`src/openraft/src/progress/entry/update.rs`.  The failing `debug_assert!`
(non-monotonic matching) is the `error` case. -/
def update_matching (e : ProgressEntry) (matching : Option LogId) :
    Except String ProgressEntry :=
  let e := { e with inflight := e.inflight.ack matching }
  if optLogIdLeb e.matching matching then
    let e := { e with matching := matching }
    Except.ok { e with searching_end := max e.searching_end (nextIndex e.matching) }
  else
    Except.error "update_matching expects a monotonically increasing matching"

/-- Searching-window invariant: `searching_end > matching.index`, i.e.
`searching_end >= matching.next_index` with `None` read as next index 0. -/
def searchingInv (e : ProgressEntry) : Prop :=
  nextIndex e.matching ≤ e.searching_end

instance (e : ProgressEntry) : Decidable (searchingInv e) := by
  unfold searchingInv; infer_instance

end Openraft

namespace Rocksstore

open Openraft (LogId)

/-- Modelled from the spec: a membership configuration.  Its contents are
opaque to the store (`rocksstore` only serializes and copies it), so it is
embedded as an abstract token. -/
abbrev MembershipConfig := Nat

/-- Modelled from the spec: an `EffectiveMembership` pairs a `LogId` with a
`MembershipConfig` (`EffectiveMembership::new(log_id, membership)`). -/
structure EffectiveMembership where
  log_id : LogId
  membership : MembershipConfig
  deriving DecidableEq

/-- Application request type of `rocksstore`: `RocksRequest::Set { key, value }`. -/
inductive RocksRequest where
  | Set (key : String) (value : String)
  deriving DecidableEq

/-- Application response type of `rocksstore`: an optional value. -/
structure RocksResponse where
  value : Option String
  deriving DecidableEq

/-- Modelled from the spec: `EntryPayload` is `Blank | Normal(request) |
Membership(config)` (the openraft type is declared outside `src/`). -/
inductive EntryPayload where
  | Blank
  | Normal (req : RocksRequest)
  | Membership (mem : MembershipConfig)
  deriving DecidableEq

/-- Modelled from the spec: a log entry pairs a `LogId` with a payload. -/
structure Entry where
  log_id : LogId
  payload : EntryPayload
  deriving DecidableEq

/-- Hard state persisted in the `meta` partition. -/
structure HardState where
  current_term : Nat
  voted_for : Option Nat
  deriving DecidableEq

/-- Snapshot metadata: last covered log id and a snapshot id string. -/
structure SnapshotMeta where
  last_log_id : Option LogId
  snapshot_id : String
  deriving DecidableEq

/-- Insertion into an ordered string-keyed association list.  This models a
`put_cf` into a RocksDB column family (or a `BTreeMap` insertion): keys are
unique and iteration yields them in ascending order. -/
def kvPut : List (String × String) → String → String → List (String × String)
  | [], k, v => [(k, v)]
  | (k1, v1) :: rest, k, v =>
    if k < k1 then (k, v) :: (k1, v1) :: rest
    else if k = k1 then (k, v) :: rest
    else (k1, v1) :: kvPut rest k v

/-- Lookup in a string-keyed association list, modelling `get_cf`. -/
def kvGet : List (String × String) → String → Option String
  | [], _ => none
  | (k1, v1) :: rest, k => if k = k1 then some v1 else kvGet rest k

/-- Serializable form of the state machine
(`SerializableRocksStateMachine`): last applied log id, last membership, and
the application data as an ordered map. -/
structure SerializableRocksStateMachine where
  last_applied_log : Option LogId
  last_membership : Option EffectiveMembership
  data : List (String × String)
  deriving DecidableEq

/-- Contents of the state-machine column families (`sm_meta` keys
`last_applied_log` and `last_membership`, plus the `sm_data` partition) behind
the `RocksStateMachine` db handle. -/
structure RocksStateMachine where
  last_applied_log : Option LogId
  last_membership : Option EffectiveMembership
  data : List (String × String)
  deriving DecidableEq

/-- Embedding of `From<&RocksStateMachine> for SerializableRocksStateMachine`:
iterate `sm_data` in key order into a `BTreeMap` and read the two meta keys. -/
def toSerializable (m : RocksStateMachine) : SerializableRocksStateMachine :=
  ⟨m.last_applied_log, m.last_membership, m.data⟩

/-- Embedding of `RocksStateMachine::from_serializable`: the payload keys are
written with `put_cf` into the (shared, pre-existing) db, and the two meta
keys are written only when the payload carries `Some` value.  Nothing is
deleted first. -/
def from_serializable (sm : SerializableRocksStateMachine) (m : RocksStateMachine) :
    RocksStateMachine :=
  let data := sm.data.foldl (fun d kv => kvPut d kv.1 kv.2) m.data
  let la := match sm.last_applied_log with
    | some l => some l
    | none => m.last_applied_log
  let lm := match sm.last_membership with
    | some x => some x
    | none => m.last_membership
  ⟨la, lm, data⟩

/-- Embedding of `RocksStateMachine::insert`: write one key into `sm_data`. -/
def RocksStateMachine.insert (m : RocksStateMachine) (key value : String) :
    RocksStateMachine :=
  { m with data := kvPut m.data key value }

/-- Embedding of `RocksStateMachine::get`: read one key from `sm_data`. -/
def RocksStateMachine.get (m : RocksStateMachine) (key : String) : Option String :=
  kvGet m.data key

/-- Persisted snapshot record (`RocksSnapshot`): meta plus the serialized
state-machine bytes.  Serialization is modelled as the identity on
`SerializableRocksStateMachine` (serde round trips faithfully). -/
structure RocksSnapshot where
  meta : SnapshotMeta
  data : SerializableRocksStateMachine
  deriving DecidableEq

/-- Snapshot handle returned by `build_snapshot` (openraft `storage::Snapshot`
with a cursor over the serialized bytes). -/
structure Snapshot where
  meta : SnapshotMeta
  data : SerializableRocksStateMachine
  deriving DecidableEq

/-- Result of `install_snapshot` (openraft `StateMachineChanges`). -/
structure StateMachineChanges where
  last_applied : Option LogId
  is_snapshot : Bool
  deriving DecidableEq

/-- Insertion into the `logs` column family keyed by 8-byte big-endian index;
big-endian encoding makes lexicographic key order equal numeric index order,
so the partition is an ordered `Nat`-keyed map. -/
def logPut : List (Nat × Entry) → Nat → Entry → List (Nat × Entry)
  | [], k, e => [(k, e)]
  | (k1, e1) :: rest, k, e =>
    if k < k1 then (k, e) :: (k1, e1) :: rest
    else if k = k1 then (k, e) :: rest
    else (k1, e1) :: logPut rest k e

/-- Lookup in the `logs` partition. -/
def logGet : List (Nat × Entry) → Nat → Option Entry
  | [], _ => none
  | (k1, e1) :: rest, k => if k = k1 then some e1 else logGet rest k

/-- Contents of the RocksDB store: the four `meta` keys, the `logs`
partition, and the state-machine column families. -/
structure RocksStore where
  hard_state : Option HardState
  last_purged : Option LogId
  snapshot_index : Option Nat
  snapshot : Option RocksSnapshot
  logs : List (Nat × Entry)
  state_machine : RocksStateMachine
  deriving DecidableEq

/-- Embedding of `RaftStorage::append_to_log`: one `put_cf` per entry, keyed
by the entry's index.  `fail` is the IO-failure oracle: `fail i = true` means
the `put_cf` of the entry with index `i` returns an error (writing nothing).
The returned `Bool` is `true` for `Ok` and `false` for an IO error; the
returned list is the `logs` partition after the call. -/
def append_to_log (fail : Nat → Bool) : List Entry → List (Nat × Entry) →
    List (Nat × Entry) × Bool
  | [], logs => (logs, true)
  | e :: rest, logs =>
    if fail e.log_id.index then (logs, false)
    else append_to_log fail rest (logPut logs e.log_id.index e)

/-- Range bound, modelling `std::ops::Bound<u64>`. -/
inductive Bound where
  | included (x : Nat)
  | excluded (x : Nat)
  | unbounded
  deriving DecidableEq

/-- Test of the start bound (`RangeBounds::contains`, lower half). -/
def Bound.startOk : Bound → Nat → Bool
  | Bound.included x, i => Nat.ble x i
  | Bound.excluded x, i => Nat.blt x i
  | Bound.unbounded, _ => true

/-- Test of the end bound (`RangeBounds::contains`, upper half). -/
def Bound.endOk : Bound → Nat → Bool
  | Bound.included x, i => Nat.ble i x
  | Bound.excluded x, i => Nat.blt i x
  | Bound.unbounded, _ => true

/-- A `RangeBounds<u64>` value: a start bound and an end bound. -/
structure LogRange where
  start : Bound
  stop : Bound
  deriving DecidableEq

/-- Embedding of `RangeBounds::contains`. -/
def LogRange.contains (r : LogRange) (i : Nat) : Bool :=
  r.start.startOk i && r.stop.endOk i

/-- Seek key computed by `try_get_log_entries` from the start bound:
`Included x` seeks `x`, `Excluded x` seeks `x + 1`, `Unbounded` seeks 0. -/
def rangeStartKey (r : LogRange) : Nat :=
  match r.start with
  | Bound.included x => x
  | Bound.excluded x => x + 1
  | Bound.unbounded => 0

/-- Iteration loop of `try_get_log_entries`: walk keys in ascending order and
break at the first key the range does not contain. -/
def tryGetLoop (r : LogRange) : List (Nat × Entry) → List Entry
  | [] => []
  | (id, e) :: rest => if r.contains id then e :: tryGetLoop r rest else []

/-- Embedding of `RaftStorage::try_get_log_entries`: seek the iterator to the
first stored key at or above the start key, then collect until the first key
outside the range. -/
def try_get_log_entries (r : LogRange) (logs : List (Nat × Entry)) : List Entry :=
  tryGetLoop r (logs.filter (fun kv => Nat.ble (rangeStartKey r) kv.1))

/-- First step of `RaftStorage::purge_logs_upto`: durably record
`last_purged_log_id` in the `meta` partition. -/
def putMetaLastPurged (s : RocksStore) (log_id : LogId) : RocksStore :=
  { s with last_purged := some log_id }

/-- RocksDB `delete_range_cf` on the `logs` partition: removes keys in
`[lo, hi)`. -/
def deleteLogRange (s : RocksStore) (lo hi : Nat) : RocksStore :=
  { s with logs := s.logs.filter (fun kv => !(Nat.ble lo kv.1 && Nat.blt kv.1 hi)) }

/-- Embedding of `RaftStorage::purge_logs_upto`: write the meta record first,
then delete the key range `[0, log_id.index + 1)`. -/
def purge_logs_upto (s : RocksStore) (log_id : LogId) : RocksStore :=
  deleteLogRange (putMetaLastPurged s log_id) 0 (log_id.index + 1)

/-- Embedding of `RaftStorage::apply_to_state_machine` restricted to one
entry: set `last_applied_log` to the entry's log id, then apply the payload
and produce the per-entry response. -/
def applyEntry (m : RocksStateMachine) (e : Entry) : RocksStateMachine × RocksResponse :=
  let m1 := { m with last_applied_log := some e.log_id }
  match e.payload with
  | EntryPayload.Blank => (m1, ⟨none⟩)
  | EntryPayload.Normal (RocksRequest.Set key value) =>
      (m1.insert key value, ⟨some value⟩)
  | EntryPayload.Membership mem =>
      ({ m1 with last_membership := some ⟨e.log_id, mem⟩ }, ⟨none⟩)

/-- Embedding of `RaftStorage::apply_to_state_machine`: sequential loop over
the batch, accumulating one response per entry (the final `flush_wal` is a
durability barrier with no logical effect on the contents). -/
def apply_to_state_machine : List Entry → RocksStateMachine →
    RocksStateMachine × List RocksResponse
  | [], m => (m, [])
  | e :: rest, m =>
    let (m1, r) := applyEntry m e
    let (m2, rs) := apply_to_state_machine rest m1
    (m2, r :: rs)

/-- Embedding of `RaftStorage::build_snapshot`: serialize the state machine,
bump the persisted snapshot counter, format the snapshot id, persist the
`RocksSnapshot` record, and return the snapshot handle. -/
def build_snapshot (s : RocksStore) : RocksStore × Snapshot :=
  let sm := toSerializable s.state_machine
  let data := sm
  let last_applied_log := sm.last_applied_log
  let snapshot_idx := (match s.snapshot_index with | some i => i | none => 0) + 1
  let s := { s with snapshot_index := some snapshot_idx }
  let snapshot_id := match last_applied_log with
    | some last =>
        toString last.term ++ "-" ++ toString last.index ++ "-" ++ toString snapshot_idx
    | none => "--" ++ toString snapshot_idx
  let meta : SnapshotMeta := ⟨last_applied_log, snapshot_id⟩
  let snapshot : RocksSnapshot := ⟨meta, data⟩
  let s := { s with snapshot := some snapshot }
  (s, ⟨meta, data⟩)

/-- Embedding of `RaftStorage::install_snapshot`: rebuild the state machine
from the (already deserialized) payload via `from_serializable`, persist the
snapshot record built from the `meta` argument, and report the change with
`last_applied` taken from `meta`. -/
def install_snapshot (meta : SnapshotMeta) (data : SerializableRocksStateMachine)
    (s : RocksStore) : RocksStore × StateMachineChanges :=
  let new_snapshot : RocksSnapshot := ⟨meta, data⟩
  let sm := from_serializable data s.state_machine
  let s := { s with state_machine := sm, snapshot := some new_snapshot }
  (s, ⟨meta.last_log_id, true⟩)

/-- State machine with no data, no applied log and no membership. -/
def emptyMachine : RocksStateMachine :=
  ⟨none, none, []⟩

/-- Sequence of `put_cf` writes into the `logs` partition, one per entry,
each keyed by the entry's index. -/
def foldPut (logs : List (Nat × Entry)) (entries : List Entry) : List (Nat × Entry) :=
  entries.foldl (fun l e => logPut l e.log_id.index e) logs

/-- Concrete sample entry at index 1, used by the worked examples. -/
def entryA : Entry := ⟨⟨1, 1⟩, EntryPayload.Blank⟩

/-- Concrete sample entry at index 2, used by the worked examples. -/
def entryB : Entry := ⟨⟨1, 2⟩, EntryPayload.Blank⟩

/-- Concrete sample entry at index 3, used by the worked examples. -/
def entryC : Entry := ⟨⟨1, 3⟩, EntryPayload.Blank⟩

/-- Concrete state machine holding one key, used by the worked examples. -/
def machineWithA : RocksStateMachine := ⟨some ⟨1, 1⟩, none, [("a", "1")]⟩

/-- Concrete store whose state machine is `machineWithA`. -/
def storeWithA : RocksStore := ⟨none, none, none, none, [], machineWithA⟩

/-- Concrete snapshot payload carrying no data, no applied log and no
membership. -/
def emptyPayload : SerializableRocksStateMachine := ⟨none, none, []⟩

/-- Concrete transport-envelope snapshot meta, used by the worked examples. -/
def envelopeMeta : SnapshotMeta := ⟨some ⟨2, 5⟩, "2-5-1"⟩

end Rocksstore

namespace Rocksstore

open Openraft (LogId)

theorem kvGet_kvPut_self (l : List (String × String)) (k v : String) :
    kvGet (kvPut l k v) k = some v := by
  induction l with
  | nil => simp [kvPut, kvGet]
  | cons hd tl ih =>
    obtain ⟨k1, v1⟩ := hd
    by_cases h1 : k < k1
    · simp [kvPut, kvGet, h1]
    · by_cases h2 : k = k1
      · simp [kvPut, kvGet, h1, h2]
      · simp [kvPut, kvGet, h1, h2, ih]

theorem kvGet_kvPut_ne (l : List (String × String)) (k v k2 : String)
    (h : k2 ≠ k) :
    kvGet (kvPut l k v) k2 = kvGet l k2 := by
  induction l with
  | nil => simp [kvPut, kvGet, h]
  | cons hd tl ih =>
    obtain ⟨k1, v1⟩ := hd
    by_cases h1 : k < k1
    · simp [kvPut, kvGet, h1, h]
    · by_cases h2 : k = k1
      · subst h2
        simp [kvPut, kvGet, h1, h]
      · simp [kvPut, kvGet, h1, h2, ih]

theorem logGet_logPut_self (l : List (Nat × Entry)) (k : Nat) (e : Entry) :
    logGet (logPut l k e) k = some e := by
  induction l with
  | nil => simp [logPut, logGet]
  | cons hd tl ih =>
    obtain ⟨k1, e1⟩ := hd
    by_cases h1 : k < k1
    · simp [logPut, logGet, h1]
    · by_cases h2 : k = k1
      · simp [logPut, logGet, h1, h2]
      · simp [logPut, logGet, h1, h2, ih]

theorem logGet_logPut_ne (l : List (Nat × Entry)) (k : Nat) (e : Entry) (k2 : Nat)
    (h : k2 ≠ k) :
    logGet (logPut l k e) k2 = logGet l k2 := by
  induction l with
  | nil => simp [logPut, logGet, h]
  | cons hd tl ih =>
    obtain ⟨k1, e1⟩ := hd
    by_cases h1 : k < k1
    · simp [logPut, logGet, h1, h]
    · by_cases h2 : k = k1
      · subst h2
        simp [logPut, logGet, h1, h]
      · simp [logPut, logGet, h1, h2, ih]

/-- Lookup after a key-predicate filter: a key survives exactly when the
predicate keeps it. -/
theorem logGet_filter_key (p : Nat → Bool) (l : List (Nat × Entry)) (k : Nat) :
    logGet (l.filter (fun kv => p kv.1)) k = if p k then logGet l k else none := by
  induction l with
  | nil => simp [logGet]
  | cons hd tl ih =>
    obtain ⟨k1, e1⟩ := hd
    by_cases hp : p k1
    · by_cases hk : k = k1
      · subst hk
        simp [logGet, hp]
      · simp [logGet, hp, hk, ih]
    · by_cases hk : k = k1
      · subst hk
        simp [logGet, hp, ih]
      · simp only [List.filter_cons]
        rw [if_neg (by simp [hp])]
        rw [ih]
        by_cases hq : p k
        · simp [logGet, hq, hk]
        · simp [logGet, hq]

/-- Response computed by one step of the apply loop. -/
theorem applyEntry_resp (m : RocksStateMachine) (e : Entry) :
    (applyEntry m e).2 =
      ⟨match e.payload with
        | EntryPayload.Normal (RocksRequest.Set _ v) => some v
        | _ => none⟩ := by
  cases e with
  | mk lid payload =>
    cases payload with
    | Blank => rfl
    | Normal req => cases req with | Set k v => rfl
    | Membership mem => rfl

/-- C10 (implicit): the per-entry responses returned by
`apply_to_state_machine` carry these values: for a `Normal(Set{key, value})`
entry the response's `value` field is `Some(value)` (echoing the value just
written); for `Blank` and `Membership` entries the `value` field is `None`. -/
theorem C10_apply_response_values (entries : List Entry) (m : RocksStateMachine) :
    (apply_to_state_machine entries m).2 = entries.map (fun e =>
      (⟨match e.payload with
        | EntryPayload.Normal (RocksRequest.Set _ v) => some v
        | _ => none⟩ : RocksResponse)) := by
  induction entries generalizing m with
  | nil => rfl
  | cons e rest ih =>
    simp only [apply_to_state_machine, List.map_cons]
    rw [← applyEntry_resp m e, ih]

/-- C7: `apply` processes a batch sequentially; each step updates
`last_applied_log` to the entry's log id (whatever the payload), a `Blank`
payload leaves the key-value data unchanged, `Normal(Set{k, v})` writes `v`
under `k` and touches no other key, `Membership(m)` sets `last_membership` to
the effective membership at the entry's log id; and the call returns exactly
one response per input entry, in order. -/
theorem C7_apply_sequential_effects (entries rest : List Entry)
    (m : RocksStateMachine) (e eb es em : Entry) (k v k2 : String)
    (mem : MembershipConfig)
    (hb : eb.payload = EntryPayload.Blank)
    (hs : es.payload = EntryPayload.Normal (RocksRequest.Set k v))
    (hm : em.payload = EntryPayload.Membership mem)
    (hk2 : k2 ≠ k) :
    (apply_to_state_machine entries m).2.length = entries.length
    ∧ apply_to_state_machine (e :: rest) m =
        ((apply_to_state_machine rest (applyEntry m e).1).1,
          (applyEntry m e).2 :: (apply_to_state_machine rest (applyEntry m e).1).2)
    ∧ (applyEntry m e).1.last_applied_log = some e.log_id
    ∧ (applyEntry m eb).1.data = m.data
    ∧ kvGet (applyEntry m es).1.data k = some v
    ∧ kvGet (applyEntry m es).1.data k2 = kvGet m.data k2
    ∧ (applyEntry m em).1.last_membership = some ⟨em.log_id, mem⟩ := by
  refine ⟨?_, ?_, ?_, ?_, ?_, ?_, ?_⟩
  · rw [C10_apply_response_values]
    exact List.length_map _ _
  · rfl
  · cases e with
    | mk lid payload =>
      cases payload with
      | Blank => rfl
      | Normal req => cases req with | Set a b => rfl
      | Membership x => rfl
  · cases eb with
    | mk lid payload =>
      cases payload with
      | Blank => rfl
      | Normal req => simp at hb
      | Membership x => simp at hb
  · cases es with
    | mk lid payload =>
      cases payload with
      | Blank => simp at hs
      | Normal req =>
        cases req with
        | Set a b =>
          simp only [EntryPayload.Normal.injEq, RocksRequest.Set.injEq] at hs
          obtain ⟨ha, hbv⟩ := hs
          subst ha; subst hbv
          exact kvGet_kvPut_self _ _ _
      | Membership x => simp at hs
  · cases es with
    | mk lid payload =>
      cases payload with
      | Blank => simp at hs
      | Normal req =>
        cases req with
        | Set a b =>
          simp only [EntryPayload.Normal.injEq, RocksRequest.Set.injEq] at hs
          obtain ⟨ha, hbv⟩ := hs
          subst ha; subst hbv
          exact kvGet_kvPut_ne _ _ _ _ hk2
      | Membership x => simp at hs
  · cases em with
    | mk lid payload =>
      cases payload with
      | Blank => simp at hm
      | Normal req => simp at hm
      | Membership x =>
        simp only [EntryPayload.Membership.injEq] at hm
        subst hm
        rfl

/-- Witness for C7 at a concrete batch and machine. -/
theorem C7_apply_sequential_effects_witness :
    (apply_to_state_machine
        [⟨⟨1, 1⟩, EntryPayload.Blank⟩,
         ⟨⟨1, 2⟩, EntryPayload.Normal (RocksRequest.Set "k" "1")⟩] emptyMachine).2.length = 2
    ∧ apply_to_state_machine
        [⟨⟨1, 1⟩, EntryPayload.Blank⟩,
         ⟨⟨1, 2⟩, EntryPayload.Normal (RocksRequest.Set "k" "1")⟩] emptyMachine =
        ((apply_to_state_machine [⟨⟨1, 2⟩, EntryPayload.Normal (RocksRequest.Set "k" "1")⟩]
            (applyEntry emptyMachine ⟨⟨1, 1⟩, EntryPayload.Blank⟩).1).1,
          (applyEntry emptyMachine ⟨⟨1, 1⟩, EntryPayload.Blank⟩).2 ::
            (apply_to_state_machine [⟨⟨1, 2⟩, EntryPayload.Normal (RocksRequest.Set "k" "1")⟩]
              (applyEntry emptyMachine ⟨⟨1, 1⟩, EntryPayload.Blank⟩).1).2)
    ∧ (applyEntry emptyMachine ⟨⟨1, 1⟩, EntryPayload.Blank⟩).1.last_applied_log =
        some ⟨1, 1⟩
    ∧ (applyEntry emptyMachine ⟨⟨2, 7⟩, EntryPayload.Blank⟩).1.data = emptyMachine.data
    ∧ kvGet (applyEntry emptyMachine
        ⟨⟨1, 2⟩, EntryPayload.Normal (RocksRequest.Set "k" "1")⟩).1.data "k" = some "1"
    ∧ kvGet (applyEntry emptyMachine
        ⟨⟨1, 2⟩, EntryPayload.Normal (RocksRequest.Set "k" "1")⟩).1.data "x" =
        kvGet emptyMachine.data "x"
    ∧ (applyEntry emptyMachine ⟨⟨3, 9⟩, EntryPayload.Membership 4⟩).1.last_membership =
        some ⟨⟨3, 9⟩, 4⟩ :=
  C7_apply_sequential_effects
    [⟨⟨1, 1⟩, EntryPayload.Blank⟩,
     ⟨⟨1, 2⟩, EntryPayload.Normal (RocksRequest.Set "k" "1")⟩]
    [⟨⟨1, 2⟩, EntryPayload.Normal (RocksRequest.Set "k" "1")⟩]
    emptyMachine ⟨⟨1, 1⟩, EntryPayload.Blank⟩ ⟨⟨2, 7⟩, EntryPayload.Blank⟩
    ⟨⟨1, 2⟩, EntryPayload.Normal (RocksRequest.Set "k" "1")⟩
    ⟨⟨3, 9⟩, EntryPayload.Membership 4⟩ "k" "1" "x" 4
    rfl rfl rfl (by decide)

/-- Lookup after a `delete_range_cf` on the `logs` partition. -/
theorem logGet_deleteLogRange (s : RocksStore) (lo hi k : Nat) :
    logGet (deleteLogRange s lo hi).logs k =
      if lo ≤ k ∧ k < hi then none else logGet s.logs k := by
  have h := logGet_filter_key (fun x => !(Nat.ble lo x && Nat.blt x hi)) s.logs k
  have hcond : ((!(Nat.ble lo k && Nat.blt k hi)) = true) ↔ ¬(lo ≤ k ∧ k < hi) := by
    rw [Bool.not_eq_true', Bool.and_eq_false_iff]
    rw [← Bool.not_eq_true (Nat.ble lo k), ← Bool.not_eq_true (Nat.blt k hi)]
    rw [Nat.ble_eq, Nat.blt_eq]
    omega
  unfold deleteLogRange
  rw [h]
  by_cases hc : lo ≤ k ∧ k < hi
  · rw [if_neg (fun hb => (hcond.mp hb) hc), if_pos hc]
  · rw [if_pos (hcond.mpr hc), if_neg hc]

/-- C9: after a successful `purge_logs_upto(log_id)`, `last_purged_log_id`
equals `log_id`, no entry with index at most `log_id.index` remains, every
entry with a larger index is retained, and the purge is the meta write
followed by the range deletion, the meta write touching only
`last_purged_log_id`. -/
theorem C9_purge_logs_upto (s : RocksStore) (l : LogId) (i j : Nat)
    (h1 : i ≤ l.index) (h2 : l.index < j) :
    (purge_logs_upto s l).last_purged = some l
    ∧ logGet (purge_logs_upto s l).logs i = none
    ∧ logGet (purge_logs_upto s l).logs j = logGet s.logs j
    ∧ (putMetaLastPurged s l).last_purged = some l
    ∧ (putMetaLastPurged s l).logs = s.logs
    ∧ purge_logs_upto s l = deleteLogRange (putMetaLastPurged s l) 0 (l.index + 1) := by
  refine ⟨rfl, ?_, ?_, rfl, rfl, rfl⟩
  · rw [show purge_logs_upto s l = deleteLogRange (putMetaLastPurged s l) 0 (l.index + 1)
      from rfl]
    rw [logGet_deleteLogRange, if_pos ⟨Nat.zero_le i, by omega⟩]
  · rw [show purge_logs_upto s l = deleteLogRange (putMetaLastPurged s l) 0 (l.index + 1)
      from rfl]
    rw [logGet_deleteLogRange, if_neg (by omega)]
    rfl

/-- Witness for C9 at a concrete store. -/
theorem C9_purge_logs_upto_witness :
    (purge_logs_upto ⟨none, none, none, none, [(1, entryA), (2, entryB), (3, entryC)],
        emptyMachine⟩ ⟨1, 2⟩).last_purged = some ⟨1, 2⟩
    ∧ logGet (purge_logs_upto ⟨none, none, none, none,
        [(1, entryA), (2, entryB), (3, entryC)], emptyMachine⟩ ⟨1, 2⟩).logs 2 = none
    ∧ logGet (purge_logs_upto ⟨none, none, none, none,
        [(1, entryA), (2, entryB), (3, entryC)], emptyMachine⟩ ⟨1, 2⟩).logs 3 =
        logGet [(1, entryA), (2, entryB), (3, entryC)] 3
    ∧ (putMetaLastPurged ⟨none, none, none, none,
        [(1, entryA), (2, entryB), (3, entryC)], emptyMachine⟩ ⟨1, 2⟩).last_purged =
        some ⟨1, 2⟩
    ∧ (putMetaLastPurged ⟨none, none, none, none,
        [(1, entryA), (2, entryB), (3, entryC)], emptyMachine⟩ ⟨1, 2⟩).logs =
        [(1, entryA), (2, entryB), (3, entryC)]
    ∧ purge_logs_upto ⟨none, none, none, none,
        [(1, entryA), (2, entryB), (3, entryC)], emptyMachine⟩ ⟨1, 2⟩ =
        deleteLogRange (putMetaLastPurged ⟨none, none, none, none,
          [(1, entryA), (2, entryB), (3, entryC)], emptyMachine⟩ ⟨1, 2⟩) 0 3 :=
  C9_purge_logs_upto ⟨none, none, none, none,
    [(1, entryA), (2, entryB), (3, entryC)], emptyMachine⟩ ⟨1, 2⟩ 2 3
    (by decide) (by decide)

/-- Full characterization of `append_to_log` under the IO-failure oracle: the
persisted entries are exactly the puts before the first failing one, and the
call reports `Ok` exactly when no put fails. -/
theorem append_to_log_characterization (fail : Nat → Bool) (entries : List Entry)
    (logs : List (Nat × Entry)) :
    append_to_log fail entries logs =
      (foldPut logs (entries.takeWhile (fun x => !(fail x.log_id.index))),
        entries.all (fun x => !(fail x.log_id.index))) := by
  induction entries generalizing logs with
  | nil => rfl
  | cons e rest ih =>
    by_cases hf : fail e.log_id.index
    · simp [append_to_log, hf, List.takeWhile_cons, foldPut]
    · simp [append_to_log, hf, List.takeWhile_cons, foldPut, ih]

/-- Lookup through a sequence of puts whose keys avoid `k`. -/
theorem logGet_foldPut_notmem (entries : List Entry) (logs : List (Nat × Entry))
    (k : Nat) (h : ∀ x ∈ entries, x.log_id.index ≠ k) :
    logGet (foldPut logs entries) k = logGet logs k := by
  induction entries generalizing logs with
  | nil => rfl
  | cons e rest ih =>
    show logGet (foldPut (logPut logs e.log_id.index e) rest) k = _
    rw [ih _ (fun x hx => h x (List.mem_cons_of_mem _ hx))]
    exact logGet_logPut_ne _ _ _ _ (fun hk => h e (List.mem_cons_self _ _) hk.symm)

/-- Lookup of a batch member after a sequence of puts with pairwise distinct
keys. -/
theorem logGet_foldPut_mem (entries : List Entry) (logs : List (Nat × Entry))
    (e : Entry) (hmem : e ∈ entries)
    (hdist : entries.Pairwise (fun a b => a.log_id.index ≠ b.log_id.index)) :
    logGet (foldPut logs entries) e.log_id.index = some e := by
  induction entries generalizing logs with
  | nil => cases hmem
  | cons a rest ih =>
    rw [List.pairwise_cons] at hdist
    show logGet (foldPut (logPut logs a.log_id.index a) rest) e.log_id.index = _
    rcases List.mem_cons.mp hmem with h | h
    · subst h
      rw [logGet_foldPut_notmem _ _ _ (fun x hx => (hdist.1 x hx).symm)]
      exact logGet_logPut_self _ _ _
    · exact ih _ h hdist.2

/-- C5 counterexample: with a batch of two entries whose second put fails,
`append_to_log` returns an IO error yet the log store has changed: the first
entry of the batch was persisted. -/
theorem C5_append_error_not_atomic :
    append_to_log (fun i => Nat.beq i 2) [entryA, entryB] [] = ([(1, entryA)], false)
    ∧ ([(1, entryA)] : List (Nat × Entry)) ≠ [] := by
  exact ⟨rfl, by simp⟩

/-- C5 (amended): for a batch with strictly increasing indices, if
`append_to_log` returns `Ok` then every entry of the batch is stored keyed by
its index; if a put fails, the call returns an IO error and exactly the
entries preceding the first failing put are persisted (a proper prefix of the
batch may remain). -/
theorem C5_append_ok_stores_batch (fail : Nat → Bool) (entries : List Entry)
    (logs : List (Nat × Entry)) (e : Entry) (hmem : e ∈ entries)
    (hinc : entries.Pairwise (fun a b => a.log_id.index < b.log_id.index))
    (hok : (append_to_log fail entries logs).2 = true) :
    logGet (append_to_log fail entries logs).1 e.log_id.index = some e
    ∧ append_to_log fail entries logs =
        (foldPut logs (entries.takeWhile (fun x => !(fail x.log_id.index))),
          entries.all (fun x => !(fail x.log_id.index))) := by
  refine ⟨?_, append_to_log_characterization fail entries logs⟩
  rw [append_to_log_characterization] at hok ⊢
  simp only [List.all_eq_true] at hok
  rw [List.takeWhile_eq_self_iff.mpr hok]
  exact logGet_foldPut_mem _ _ _ hmem (hinc.imp Nat.ne_of_lt)

/-- Witness for the amended C5 at a concrete batch with no failing put. -/
theorem C5_append_ok_stores_batch_witness :
    logGet (append_to_log (fun _ => false) [entryA, entryB] []).1 entryA.log_id.index =
      some entryA
    ∧ append_to_log (fun _ => false) [entryA, entryB] [] =
        (foldPut [] ([entryA, entryB].takeWhile (fun x => !((fun _ => false) x.log_id.index))),
          [entryA, entryB].all (fun x => !((fun _ => false) x.log_id.index))) :=
  C5_append_ok_stores_batch (fun _ => false) [entryA, entryB] [] entryA
    (by decide) (by decide) rfl

/-- Keys at or above the seek key satisfy the start bound. -/
theorem startOk_of_seek (r : LogRange) (i : Nat) (h : rangeStartKey r ≤ i) :
    r.start.startOk i = true := by
  cases hr : r.start with
  | included x =>
    simp only [Bound.startOk, Nat.ble_eq]
    simp only [rangeStartKey, hr] at h
    exact h
  | excluded x =>
    simp only [Bound.startOk, Nat.blt_eq]
    simp only [rangeStartKey, hr] at h
    omega
  | unbounded => rfl

/-- Keys the range contains are at or above the seek key. -/
theorem seek_of_contains (r : LogRange) (i : Nat) (h : r.contains i = true) :
    Nat.ble (rangeStartKey r) i = true := by
  rw [LogRange.contains, Bool.and_eq_true] at h
  rw [Nat.ble_eq]
  cases hr : r.start with
  | included x =>
    have := h.1
    rw [hr] at this
    simp only [Bound.startOk, Nat.ble_eq] at this
    simp only [rangeStartKey, hr]
    exact this
  | excluded x =>
    have := h.1
    rw [hr] at this
    simp only [Bound.startOk, Nat.blt_eq] at this
    simp only [rangeStartKey, hr]
    omega
  | unbounded =>
    simp [rangeStartKey, hr]

/-- Failing the end bound is upward closed: keys past a failing key fail. -/
theorem endOk_false_mono (b : Bound) (i j : Nat) (h : b.endOk i = false)
    (hij : i ≤ j) : b.endOk j = false := by
  cases b with
  | included x =>
    simp only [Bound.endOk] at *
    rw [← Bool.not_eq_true, Nat.ble_eq] at *
    omega
  | excluded x =>
    simp only [Bound.endOk] at *
    rw [← Bool.not_eq_true, Nat.blt_eq] at *
    omega
  | unbounded => simp [Bound.endOk] at h

/-- On a sorted key run whose keys all satisfy the start bound, breaking at
the first key outside the range collects exactly the in-range entries. -/
theorem tryGetLoop_eq_filter (r : LogRange) (l : List (Nat × Entry))
    (hsort : l.Pairwise (fun a b => a.1 < b.1))
    (hstart : ∀ kv ∈ l, r.start.startOk kv.1 = true) :
    tryGetLoop r l = (l.filter (fun kv => r.contains kv.1)).map Prod.snd := by
  induction l with
  | nil => rfl
  | cons hd tl ih =>
    rw [List.pairwise_cons] at hsort
    by_cases hc : r.contains hd.1 = true
    · rw [show tryGetLoop r (hd :: tl) = hd.2 :: tryGetLoop r tl from by
        rw [tryGetLoop.eq_def]
        simp [hc]]
      rw [List.filter_cons, if_pos hc, List.map_cons]
      rw [ih hsort.2 (fun kv hkv => hstart kv (List.mem_cons_of_mem _ hkv))]
    · rw [show tryGetLoop r (hd :: tl) = [] from by
        rw [tryGetLoop.eq_def]
        simp [hc]]
      rw [List.filter_cons, if_neg hc]
      have hend : r.stop.endOk hd.1 = false := by
        have hs := hstart hd (List.mem_cons_self _ _)
        rw [LogRange.contains] at hc
        cases he : r.stop.endOk hd.1
        · rfl
        · exact absurd (by rw [hs, he]; rfl) hc
      have : tl.filter (fun kv => r.contains kv.1) = [] := by
        rw [List.filter_eq_nil_iff]
        intro kv hkv
        have hlt : hd.1 < kv.1 := hsort.1 kv hkv
        rw [LogRange.contains]
        rw [endOk_false_mono r.stop hd.1 kv.1 hend (Nat.le_of_lt hlt)]
        simp
      rw [this]
      rfl

/-- C8 counterexample: with entries stored at indices 1 and 3 (index 2
missing) and the range `1..=3`, `try_get_log_entries` returns both entries:
the entry at index 3, which lies past the missing in-range index 2, is
returned, contrary to the stop-at-first-gap clause of the claim. -/
theorem C8_returns_entries_past_gap :
    try_get_log_entries ⟨Bound.included 1, Bound.included 3⟩ [(1, entryA), (3, entryC)] =
      [entryA, entryC]
    ∧ logGet [(1, entryA), (3, entryC)] 2 = none
    ∧ (⟨Bound.included 1, Bound.included 3⟩ : LogRange).contains 2 = true :=
  ⟨rfl, rfl, rfl⟩

/-- C8 (amended): for a log stored in increasing index order,
`try_get_log_entries` returns exactly the stored entries whose indices the
range contains, in increasing index order, with no stopping at gaps in stored
indices; an unbounded start bound is interpreted as seek key 0. -/
theorem C8_try_get_exactly_range (r : LogRange) (logs : List (Nat × Entry))
    (hsort : logs.Pairwise (fun a b => a.1 < b.1)) :
    try_get_log_entries r logs = (logs.filter (fun kv => r.contains kv.1)).map Prod.snd
    ∧ rangeStartKey ⟨Bound.unbounded, r.stop⟩ = 0 := by
  refine ⟨?_, rfl⟩
  rw [try_get_log_entries]
  rw [tryGetLoop_eq_filter r _ (hsort.filter _) (fun kv hkv => by
    have := (List.mem_filter.mp hkv).2
    exact startOk_of_seek r kv.1 (Nat.ble_eq.mp (by simpa using this)))]
  rw [List.filter_filter]
  apply congrArg (List.map Prod.snd)
  apply List.filter_congr
  intro kv _
  cases hc : r.contains kv.1
  · simp [hc]
  · simp [hc, seek_of_contains r kv.1 hc]

/-- Witness for the amended C8 at a concrete log and range. -/
theorem C8_try_get_exactly_range_witness :
    try_get_log_entries ⟨Bound.excluded 1, Bound.excluded 3⟩
        [(1, entryA), (2, entryB), (3, entryC)] =
      (([(1, entryA), (2, entryB), (3, entryC)] : List (Nat × Entry)).filter
        (fun kv => LogRange.contains ⟨Bound.excluded 1, Bound.excluded 3⟩ kv.1)).map Prod.snd
    ∧ rangeStartKey ⟨Bound.unbounded, Bound.excluded 3⟩ = 0 :=
  C8_try_get_exactly_range ⟨Bound.excluded 1, Bound.excluded 3⟩
    [(1, entryA), (2, entryB), (3, entryC)] (by decide)

/-- Insertion of a key above every key of a sorted association list appends. -/
theorem kvPut_of_gt (l : List (String × String)) (k v : String)
    (h : ∀ kv ∈ l, kv.1 < k) :
    kvPut l k v = l ++ [(k, v)] := by
  induction l with
  | nil => rfl
  | cons hd tl ih =>
    obtain ⟨k1, v1⟩ := hd
    have h1 : k1 < k := h (k1, v1) (List.mem_cons_self _ _)
    rw [kvPut]
    rw [if_neg (by exact fun hlt => absurd h1 (lt_asymm hlt))]
    rw [if_neg (by exact fun he => absurd h1 (by rw [he]; exact lt_irrefl k1))]
    rw [ih (fun kv hkv => h kv (List.mem_cons_of_mem _ hkv))]
    rfl

/-- Folding `kvPut` of a sorted run onto a sorted prefix appends the run. -/
theorem foldl_kvPut_sorted (l2 l1 : List (String × String))
    (h : (l1 ++ l2).Pairwise (fun a b => a.1 < b.1)) :
    l2.foldl (fun d kv => kvPut d kv.1 kv.2) l1 = l1 ++ l2 := by
  induction l2 generalizing l1 with
  | nil => simp
  | cons x tl ih =>
    rw [List.foldl_cons]
    have hx : kvPut l1 x.1 x.2 = l1 ++ [x] := by
      rw [kvPut_of_gt]
      intro kv hkv
      exact (List.pairwise_append.mp h).2.2 kv hkv x (List.mem_cons_self _ _)
    rw [hx, ih (l1 ++ [x]) (by simpa using h)]
    simp

/-- C3: building a snapshot of a machine `S` and installing its bytes on an
empty machine (no data keys, no applied log, no membership) reproduces `S`
exactly: key-value data, `last_applied_log` and `last_membership` all agree. -/
theorem C3_snapshot_install_roundtrip (s0 empty0 : RocksStore)
    (hsorted : s0.state_machine.data.Pairwise (fun a b => a.1 < b.1))
    (hempty : empty0.state_machine = emptyMachine) :
    (install_snapshot (build_snapshot s0).2.meta (build_snapshot s0).2.data
      empty0).1.state_machine = s0.state_machine := by
  have hm : (install_snapshot (build_snapshot s0).2.meta (build_snapshot s0).2.data
      empty0).1.state_machine
      = from_serializable (toSerializable s0.state_machine) empty0.state_machine := rfl
  rw [hm, hempty]
  have hfold := foldl_kvPut_sorted s0.state_machine.data [] (by simpa using hsorted)
  cases hM : s0.state_machine with
  | mk la lm data =>
    rw [hM] at hfold
    cases la <;> cases lm <;>
      simp [from_serializable, toSerializable, emptyMachine, hfold]

/-- Witness for C3 at a concrete machine with two keys. -/
theorem C3_snapshot_install_roundtrip_witness :
    (install_snapshot
        (build_snapshot ⟨none, none, none, none, [],
          ⟨some ⟨1, 2⟩, some ⟨⟨1, 1⟩, 3⟩, [("a", "1")]⟩⟩).2.meta
        (build_snapshot ⟨none, none, none, none, [],
          ⟨some ⟨1, 2⟩, some ⟨⟨1, 1⟩, 3⟩, [("a", "1")]⟩⟩).2.data
        ⟨none, none, none, none, [], emptyMachine⟩).1.state_machine =
      (⟨none, none, none, none, [],
        ⟨some ⟨1, 2⟩, some ⟨⟨1, 1⟩, 3⟩, [("a", "1")]⟩⟩ : RocksStore).state_machine :=
  C3_snapshot_install_roundtrip
    ⟨none, none, none, none, [], ⟨some ⟨1, 2⟩, some ⟨⟨1, 1⟩, 3⟩, [("a", "1")]⟩⟩
    ⟨none, none, none, none, [], emptyMachine⟩ (by decide) rfl

/-- C2: evaluation of `install_snapshot` at the failing input.  Installing a
payload with an empty data map and no `last_applied_log` onto a machine that
holds key `a` and applied log id `(1, 1)` leaves both in place:
`from_serializable` only writes the payload's keys into the shared db (it
deletes nothing) and skips `sm_meta` keys the payload lacks, so the machine
does not equal the payload. -/
theorem C2_install_snapshot_keeps_stale_state :
    (install_snapshot envelopeMeta emptyPayload storeWithA).1.state_machine.data =
      [("a", "1")]
    ∧ (install_snapshot envelopeMeta emptyPayload
        storeWithA).1.state_machine.last_applied_log = some ⟨1, 1⟩
    ∧ emptyPayload.data = []
    ∧ emptyPayload.last_applied_log = none :=
  ⟨rfl, rfl, rfl, rfl⟩

end Rocksstore

namespace Openraft

/-- Reflexivity of the boolean ordering on optional log ids. -/
theorem optLogIdLeb_refl (o : Option LogId) : optLogIdLeb o o = true := by
  cases o with
  | none => rfl
  | some a =>
    simp [optLogIdLeb, logIdLeb, Nat.ble_eq]

/-- Characterization of `update_conflicting` by the fields of the input
entry, obtained by unfolding the definition. -/
theorem update_conflicting_spec (cfg : EngineConfig) (e : ProgressEntry)
    (c : Nat) (p : Bool) :
    update_conflicting cfg e c p =
      (if e.searching_end ≤ c then
        Except.ok ⟨e.matching, e.searching_end,
          if p then e.inflight.conflict c else e.inflight, e.allow_log_reversion⟩
      else if e.allow_log_reversion || cfg.allow_log_reversion then
        if c < nextIndex e.matching then
          Except.ok ⟨Option.none, c,
            if p then e.inflight.conflict c else e.inflight, false⟩
        else
          Except.ok ⟨e.matching, c,
            if p then e.inflight.conflict c else e.inflight, e.allow_log_reversion⟩
      else if nextIndex e.matching ≤ c then
        Except.ok ⟨e.matching, c,
          if p then e.inflight.conflict c else e.inflight, e.allow_log_reversion⟩
      else
        Except.error
          "follower log reversion is not allowed without allow_log_reversion enabled") := by
  cases p <;> rfl

/-- Characterization of `update_matching` by the fields of the input entry,
obtained by unfolding the definition. -/
theorem update_matching_spec (e : ProgressEntry) (m : Option LogId) :
    update_matching e m =
      (if optLogIdLeb e.matching m then
        Except.ok ⟨m, max e.searching_end (nextIndex m), e.inflight.ack m,
          e.allow_log_reversion⟩
      else
        Except.error "update_matching expects a monotonically increasing matching") :=
  rfl

/-- C1: for every `ProgressEntry` and every call to `update_matching` or
`update_conflicting` whose preconditions hold (`update_matching` called with
`matching >= self.matching`; `update_conflicting` with a reversion-permitting
flag when `conflict < matching.index + 1`), the invariant
`searching_end > matching.index` (reading `matching = None` as next index 0,
i.e. `searching_end >= matching.next_index`) holds after the call whenever it
held before. -/
theorem C1_searching_window_preserved (cfg : EngineConfig) (e : ProgressEntry)
    (m : Option LogId) (c : Nat) (p : Bool) (e1 e2 : ProgressEntry)
    (hinv : searchingInv e)
    (hmono : optLogIdLeb e.matching m = true)
    (hallow : c < nextIndex e.matching →
      (e.allow_log_reversion || cfg.allow_log_reversion) = true)
    (hm : update_matching e m = Except.ok e1)
    (hc : update_conflicting cfg e c p = Except.ok e2) :
    searchingInv e1 ∧ searchingInv e2 := by
  constructor
  · rw [update_matching_spec, if_pos hmono] at hm
    injection hm with hm
    subst hm
    exact le_max_right _ _
  · rw [update_conflicting_spec] at hc
    split at hc
    · injection hc with hc; subst hc; exact hinv
    · split at hc
      · split at hc
        · injection hc with hc; subst hc
          exact Nat.zero_le c
        · next hge =>
          injection hc with hc; subst hc
          simp only [searchingInv] at *
          omega
      · split at hc
        · next hge =>
          injection hc with hc; subst hc
          simp only [searchingInv] at *
          omega
        · exact absurd hc (by simp)

/-- Witness for C1 at a concrete progress entry. -/
theorem C1_searching_window_preserved_witness :
    searchingInv (⟨some ⟨1, 3⟩, 5, Inflight.none, true⟩ : ProgressEntry)
    ∧ (searchingInv (⟨some ⟨1, 4⟩, 5, Inflight.none, true⟩ : ProgressEntry)
       ∧ searchingInv (⟨Option.none, 2, Inflight.none, false⟩ : ProgressEntry)) :=
  ⟨by decide,
    C1_searching_window_preserved ⟨false⟩ ⟨some ⟨1, 3⟩, 5, Inflight.none, true⟩
      (some ⟨1, 4⟩) 2 true ⟨some ⟨1, 4⟩, 5, Inflight.none, true⟩
      ⟨Option.none, 2, Inflight.none, false⟩
      (by decide) (by decide) (fun _ => rfl) rfl rfl⟩

/-- C4: for a progress entry whose per-entry `allow_log_reversion` flag is
false, with the engine-wide `allow_log_reversion` config disabled, a call to
`update_conflicting` with `conflict < searching_end` and
`conflict < matching.index + 1` (a previously acknowledged entry reported
missing) fails the reversion assertion: the call halts with a diagnostic (the
`debug_assert!` panic, modelled as the `error` result) instead of returning an
updated entry. -/
theorem C4_reversion_without_permission_halts (cfg : EngineConfig)
    (e : ProgressEntry) (c : Nat) (p : Bool)
    (h1 : e.allow_log_reversion = false)
    (h2 : cfg.allow_log_reversion = false)
    (h3 : c < e.searching_end)
    (h4 : c < nextIndex e.matching) :
    ∃ msg, update_conflicting cfg e c p = Except.error msg := by
  refine ⟨"follower log reversion is not allowed without allow_log_reversion enabled", ?_⟩
  rw [update_conflicting_spec, if_neg (by omega), h1, h2]
  rw [if_neg (by simp), if_neg (by omega)]

/-- Witness for C4 at a concrete progress entry. -/
theorem C4_reversion_without_permission_halts_witness :
    (⟨some ⟨1, 3⟩, 5, Inflight.none, false⟩ : ProgressEntry).allow_log_reversion = false
    ∧ (⟨false⟩ : EngineConfig).allow_log_reversion = false
    ∧ 2 < (⟨some ⟨1, 3⟩, 5, Inflight.none, false⟩ : ProgressEntry).searching_end
    ∧ 2 < nextIndex (⟨some ⟨1, 3⟩, 5, Inflight.none, false⟩ : ProgressEntry).matching
    ∧ ∃ msg, update_conflicting ⟨false⟩ ⟨some ⟨1, 3⟩, 5, Inflight.none, false⟩ 2 true =
        Except.error msg :=
  ⟨rfl, rfl, by decide, by decide,
    C4_reversion_without_permission_halts ⟨false⟩ ⟨some ⟨1, 3⟩, 5, Inflight.none, false⟩
      2 true rfl rfl (by decide) (by decide)⟩

/-- C6: when log reversion is allowed (per-entry one-shot flag OR engine-wide
config), `update_conflicting` with `conflict < searching_end` and
`conflict < matching.index + 1` sets `matching` to `None` and consumes the
one-shot flag; in all other cases `matching` is non-decreasing across
`update_conflicting` and `update_matching`. -/
theorem C6_reversion_resets_and_matching_monotone (cfg : EngineConfig)
    (e f : ProgressEntry) (c d : Nat) (p q : Bool) (m : Option LogId)
    (e1 f1 g1 : ProgressEntry)
    (hallow : (e.allow_log_reversion || cfg.allow_log_reversion) = true)
    (h1 : c < e.searching_end)
    (h2 : c < nextIndex e.matching)
    (hok : update_conflicting cfg e c p = Except.ok e1)
    (hother : ¬(d < f.searching_end ∧ d < nextIndex f.matching ∧
      (f.allow_log_reversion || cfg.allow_log_reversion) = true))
    (hok2 : update_conflicting cfg f d q = Except.ok f1)
    (hok3 : update_matching f m = Except.ok g1) :
    (e1.matching = Option.none ∧ e1.allow_log_reversion = false)
    ∧ optLogIdLeb f.matching f1.matching = true
    ∧ optLogIdLeb f.matching g1.matching = true := by
  refine ⟨?_, ?_, ?_⟩
  · rw [update_conflicting_spec, if_neg (by omega), if_pos hallow, if_pos h2] at hok
    injection hok with hok
    subst hok
    exact ⟨rfl, rfl⟩
  · rw [update_conflicting_spec] at hok2
    split at hok2
    · injection hok2 with hok2; subst hok2; exact optLogIdLeb_refl _
    · next hlt =>
      split at hok2
      · next hall =>
        split at hok2
        · next hrev =>
          exact absurd ⟨by omega, hrev, hall⟩ hother
        · injection hok2 with hok2; subst hok2; exact optLogIdLeb_refl _
      · split at hok2
        · injection hok2 with hok2; subst hok2; exact optLogIdLeb_refl _
        · exact absurd hok2 (by simp)
  · rw [update_matching_spec] at hok3
    split at hok3
    · next hmono =>
      injection hok3 with hok3
      subst hok3
      exact hmono
    · exact absurd hok3 (by simp)

/-- Witness for C6 at concrete progress entries. -/
theorem C6_reversion_resets_and_matching_monotone_witness :
    ((⟨Option.none, 2, Inflight.none, false⟩ : ProgressEntry).matching = Option.none
      ∧ (⟨Option.none, 2, Inflight.none, false⟩ : ProgressEntry).allow_log_reversion = false)
    ∧ optLogIdLeb (some ⟨1, 3⟩) (some ⟨1, 3⟩) = true
    ∧ optLogIdLeb (some ⟨1, 3⟩) (some ⟨1, 4⟩) = true :=
  C6_reversion_resets_and_matching_monotone ⟨false⟩
    ⟨some ⟨1, 3⟩, 5, Inflight.none, true⟩ ⟨some ⟨1, 3⟩, 5, Inflight.none, false⟩
    2 7 true true (some ⟨1, 4⟩)
    ⟨Option.none, 2, Inflight.none, false⟩ ⟨some ⟨1, 3⟩, 5, Inflight.none, false⟩
    ⟨some ⟨1, 4⟩, 5, Inflight.none, false⟩
    rfl (by decide) (by decide) rfl (by decide) rfl rfl

end Openraft
